import Mathlib

/-!
# Verification of the BuildKml placemark engine (`src/kml.py`)

Shallow embedding of the `Kml` class: placemark records, the stable
`(Folder, Latitude)` sort of `_reorder_placemarks`, the greedy
minimum-distance filter of `_filter_placemarks`, the folder-grouped
document builder of `_get_kml_string`, and the boolean-reporting
`save_kml_file`.

Coordinates are modelled as rationals (every Python float is a rational,
and the claims under scrutiny are order- and structure-theoretic).  The
haversine `_distance_between_placemarks` uses floating trigonometry, so the
greedy filter is parameterised over the distance function `d`; the claims
about the filter hold for every such function (nonnegativity is taken as a
hypothesis where needed, since the haversine is nonnegative).
-/

/-- A placemark record, as built by `_add_placemark`: the Python dict with
keys `Latitude`, `Longitude`, `Name`, `Folder`, plus the `Export` flag that
`_filter_placemarks` adds later (`none` models the key being absent). -/
structure Placemark where
  Latitude : ℚ
  Longitude : ℚ
  Name : String
  Folder : String
  Export : Option Bool := none
deriving DecidableEq

/-- Strict code-point lexicographic comparison of character lists: this is
how Python compares the `Folder` strings inside the sort key tuple. -/
def charListLtb : List Char → List Char → Bool
  | [], [] => false
  | [], _ :: _ => true
  | _ :: _, [] => false
  | a :: as, b :: bs => if a < b then true else if b < a then false else charListLtb as bs

/-- Python string `<` on the underlying character sequences. -/
def strLtb (a b : String) : Bool := charListLtb a.data b.data

/-- Strict comparison of the Python sort key tuples
`(i["Folder"], i["Latitude"])` used by `_reorder_placemarks`. -/
def keyLtb (p q : Placemark) : Bool :=
  strLtb p.Folder q.Folder || (p.Folder == q.Folder && decide (p.Latitude < q.Latitude))

/-- Non-strict key comparison: `p`'s key is not greater than `q`'s key.
Python's stable sort only consults `<` on keys, so "le" is the negation of
the flipped strict comparison. -/
def keyLeb (p q : Placemark) : Bool := !(keyLtb q p)

/-- The sort key of a record: the tuple `(i["Folder"], i["Latitude"])`. -/
def keyOf (p : Placemark) : String × ℚ := (p.Folder, p.Latitude)

/-- Readable form of "sorted by `(sourceFolder ascending lexicographic,
latitude ascending numeric)`": either the folder is strictly smaller, or the
folders agree and the latitude is not larger. -/
def keyLe (p q : Placemark) : Prop :=
  strLtb p.Folder q.Folder = true ∨ (p.Folder = q.Folder ∧ p.Latitude ≤ q.Latitude)

/-- The inner-loop test of `_filter_placemarks`: does the candidate lie
strictly closer than `T` to some record of the kept list? (`List.any`
models the early-`break` loop.) -/
def tooClose (d : ℚ → ℚ → ℚ → ℚ → ℚ) (T : ℚ) (kept : List Placemark)
    (c : Placemark) : Bool :=
  kept.any fun k => decide (d c.Latitude c.Longitude k.Latitude k.Longitude < T)

/-- The loop of `_filter_placemarks`: walk the records in order, flag each
with `Export`, and append the survivors to the kept list. -/
def filter_placemarks_aux (d : ℚ → ℚ → ℚ → ℚ → ℚ) (T : ℚ) :
    List Placemark → List Placemark → List Placemark
  | _, [] => []
  | kept, c :: rest =>
    if tooClose d T kept c then
      { c with Export := some false } :: filter_placemarks_aux d T kept rest
    else
      { c with Export := some true } ::
        filter_placemarks_aux d T (kept ++ [{ c with Export := some true }]) rest

/-- Model of `_filter_placemarks`: greedy single-pass minimum-distance filter,
starting from an empty kept list. -/
def filter_placemarks (d : ℚ → ℚ → ℚ → ℚ → ℚ) (T : ℚ)
    (l : List Placemark) : List Placemark :=
  filter_placemarks_aux d T [] l

/-- Model of `_reorder_placemarks`: stable sort by `(Folder, Latitude)` (Python's
`sorted` is a stable merge sort, modelled by `List.mergeSort`), followed by
re-running the filter. -/
def reorder_placemarks (d : ℚ → ℚ → ℚ → ℚ → ℚ) (T : ℚ)
    (l : List Placemark) : List Placemark :=
  filter_placemarks d T (l.mergeSort keyLeb)

/-- A concrete distance function used to exercise the filter on explicit
inputs: distance `0` between identical coordinate pairs, `1` otherwise. -/
def discreteDist (lat1 lon1 lat2 lon2 : ℚ) : ℚ :=
  if lat1 = lat2 ∧ lon1 = lon2 then 0 else 1

/-! ## Decimal rendering of coordinates

`_get_kml_string` writes `str(my_coord["Longitude"]) + "," + str(my_coord["Latitude"])`.
CPython's `str` on a float prints the shortest decimal that round-trips; for
the stored values exercised by the specification this is the exact finite
decimal expansion of the value, which is what `ratStr` computes (sign,
integer part, a decimal point, then the fractional digits, with a trailing
`0` when the value is integral, exactly as `str` prints `45.0`).
Scientific-notation output for very large or very small magnitudes is not
modelled; no claim exercises it. -/

/-- Decimal digits of a natural number, accumulated most significant first
(`fuel`-bounded structural recursion; `fuel ≥ n` suffices). -/
def natDigits : Nat → Nat → List Char
  | 0, _ => []
  | fuel + 1, n =>
    if n = 0 then [] else natDigits fuel (n / 10) ++ [Char.ofNat (48 + n % 10)]

/-- Render a natural number in decimal. -/
def natStr (n : Nat) : String :=
  if n = 0 then "0" else ⟨natDigits (n + 1) n⟩

/-- Fractional decimal digits of `rem/den` (`0 ≤ rem < den`), produced by
repeated multiplication by ten until the remainder vanishes or fuel runs
out. -/
def fracDigits : Nat → Nat → Nat → List Char
  | 0, _, _ => []
  | fuel + 1, rem, den =>
    if rem = 0 then []
    else Char.ofNat (48 + rem * 10 / den) :: fracDigits fuel (rem * 10 % den) den

/-- Exact decimal rendering of a rational, mirroring `str` on the stored
float values (full stored precision, no rounding). -/
def ratStr (q : ℚ) : String :=
  let sign : String := if q < 0 then "-" else ""
  let n := q.num.natAbs
  let ip := n / q.den
  let frac := fracDigits 64 (n % q.den) q.den
  sign ++ natStr ip ++ "." ++ (if frac.isEmpty then "0" else ⟨frac⟩)

/-- The value `45.5` as a rational with explicitly reduced numerator and denominator. -/
def latEx : ℚ := ⟨91, 2, by decide, by decide⟩

/-- The value `-73.5` as a rational with explicitly reduced numerator and denominator. -/
def lonEx : ℚ := ⟨-147, 2, by decide, by decide⟩

/-! ## The markup document tree

`_get_kml_string` builds (via `xml.etree.ElementTree`) a `kml` root with one
`Document` holding the map name/description and a sequence of `Folder`
elements, each holding the `Placemark` elements of one contiguous run of
records sharing a `Folder` value.  The tree is modelled structurally; the
final serialization (`ET.tostring` + `minidom` pretty-printing, with its
fallback to the unformatted string) only re-encodes this tree and is not
modelled further, as no claim depends on it. -/

/-- Model of `os.path.split`: the tail is everything after the last `/`; the head is
everything before it, with trailing slashes stripped unless the head
consists only of slashes. -/
def pathSplit (s : String) : String × String :=
  let rev := s.data.reverse
  let tailRev := rev.takeWhile fun ch => ch ≠ '/'
  let headRevSlashes := rev.drop tailRev.length
  let headRevStripped := headRevSlashes.dropWhile fun ch => ch = '/'
  let headRev := if headRevStripped.isEmpty then headRevSlashes else headRevStripped
  (⟨headRev.reverse⟩, ⟨tailRev.reverse⟩)

/-- A `Placemark` element of the output tree: optional `name`/`description`
children (present when the record's `Name` is non-empty) and the mandatory
`Point/coordinates` text. -/
structure PlacemarkElem where
  name : Option String
  description : Option String
  coordinates : String
deriving DecidableEq

/-- A `Folder` element: its `name` text and its `Placemark` children. -/
structure KmlFolder where
  name : String
  placemarks : List PlacemarkElem
deriving DecidableEq

/-- The `Document` level of the tree. -/
structure KmlDoc where
  name : String
  description : String
  folders : List KmlFolder
deriving DecidableEq

/-- The `Placemark` element emitted for one record: `name`/`description`
from `os.path.split` of the record's `Name` when non-empty, and the
coordinate text `str(Longitude) + "," + str(Latitude)`. -/
def mkPlacemarkElem (c : Placemark) : PlacemarkElem :=
  { name := if c.Name ≠ "" then some (pathSplit c.Name).2 else none
    description := if c.Name ≠ "" then some (pathSplit c.Name).1 else none
    coordinates := ratStr c.Longitude ++ "," ++ ratStr c.Latitude }

/-- The `Placemark` children contributed by one record: one element when
its `Export` flag is truthy, none otherwise. -/
def emitRecord (c : Placemark) : List PlacemarkElem :=
  if c.Export = some true then [mkPlacemarkElem c] else []

/-- The folder-grouping loop of `_get_kml_string`: `cur` is the current
folder label (`folder_name.text`), `acc` the `Placemark` elements already
appended to the current folder.  A record whose `Folder` differs from `cur`
closes the current folder and starts a new one; the export check is
independent of the folder-boundary check. -/
def buildFoldersAux : String → List PlacemarkElem → List Placemark → List KmlFolder
  | cur, acc, [] => [⟨cur, acc⟩]
  | cur, acc, c :: rest =>
    if c.Folder ≠ cur then
      ⟨cur, acc⟩ :: buildFoldersAux c.Folder (emitRecord c) rest
    else
      buildFoldersAux cur (acc ++ emitRecord c) rest

/-- The folder sequence of the document: the first folder is seeded from
`self._placemark_list[0]["Folder"]`; on an empty store this subscript
raises an uncaught `IndexError`, modelled as `none`. -/
def buildFolders : List Placemark → Option (List KmlFolder)
  | [] => none
  | c :: rest => some (buildFoldersAux c.Folder [] (c :: rest))

/-- Number of `Placemark` elements emitted into the document
(`nb_files_to_export`). -/
def emittedCount (fs : List KmlFolder) : Nat :=
  (fs.map fun f => f.placemarks.length).sum

/-! ## The `Kml` object and its methods -/

/-- An uncaught Python exception escaping a method. -/
inductive PyExc where
  | indexError
deriving DecidableEq

/-- A failure of the delegated file write (`IOError`/`OSError`): permission
denied, missing directory, disk full, …. -/
inductive WriteErr where
  | permissionDenied
  | missingDirectory
  | diskFull
deriving DecidableEq

/-- The state of a `Kml` object relevant to rendering: `map_name`,
`map_description`, the distance threshold and the placemark store. -/
structure KmlState where
  map_name : String
  map_description : String
  min_distance_between_placemarks_in_meters : ℚ
  placemark_list : List Placemark
deriving DecidableEq

/-- Model of `_get_kml_string`: re-sorts and re-filters the store (mutating it),
then builds the document tree; on an empty store the first-folder subscript
raises `IndexError`.  Returns the mutated state (the sort/filter side
effect happens before the subscript) and the outcome. -/
def get_kml_string (d : ℚ → ℚ → ℚ → ℚ → ℚ) (st : KmlState) :
    KmlState × Except PyExc KmlDoc :=
  let lst := reorder_placemarks d st.min_distance_between_placemarks_in_meters
    st.placemark_list
  let st' := { st with placemark_list := lst }
  match buildFolders lst with
  | none => (st', Except.error PyExc.indexError)
  | some fs => (st', Except.ok ⟨st.map_name, st.map_description, fs⟩)

/-- Model of `save_kml_file`: renders the document, then attempts the write.  The
write's outcome is an input (the filesystem is external); `IOError`/`OSError`
from the write is caught and reported as `False`, success as `True`.  An
exception escaping `_get_kml_string` itself propagates. -/
def save_kml_file (d : ℚ → ℚ → ℚ → ℚ → ℚ) (st : KmlState)
    (write : Except WriteErr Unit) : KmlState × Except PyExc Bool :=
  match get_kml_string d st with
  | (st', Except.error e) => (st', Except.error e)
  | (st', Except.ok _) =>
    match write with
    | Except.ok _ => (st', Except.ok true)
    | Except.error _ => (st', Except.ok false)

/-! ## The shared class-attribute store

In the source, `_placemark_list = []` is a *class* attribute of `Kml`;
`__init__` only assigns `map_name`, so every instance that has not rebound
`_placemark_list` reads and mutates the one class-level list object.
`_add_placemark` calls `self._placemark_list.append(...)`, which mutates
that shared list in place. -/

/-- The class-level attribute storage shared by all `Kml` instances. -/
structure KmlClassAttrs where
  placemark_list : List Placemark
deriving DecidableEq

/-- Per-instance storage: `__init__` creates only `map_name`. -/
structure KmlInstance where
  map_name : String
deriving DecidableEq

/-- Model of `Kml.__init__`: sets `map_name` on the instance and touches nothing
else; in particular it does not create an instance-level placemark list. -/
def kml_init (name : String) : KmlInstance := ⟨name⟩

/-- Model of `_add_placemark` invoked through some instance: appends to the shared
class-level list. -/
def add_placemark (cls : KmlClassAttrs) (_self : KmlInstance)
    (latitude longitude : ℚ) (name folder : String) : KmlClassAttrs :=
  { cls with placemark_list :=
      cls.placemark_list ++ [⟨latitude, longitude, name, folder, none⟩] }

/-- Reading `self._placemark_list` from an instance that never rebound it:
attribute lookup falls through to the class attribute. -/
def view_placemark_list (cls : KmlClassAttrs) (_self : KmlInstance) :
    List Placemark := cls.placemark_list

/-! ## Auxiliary notions used by the verification -/

/-- Erase the `Export` flag, leaving the data the sort key and the
document builder read. -/
def stripExport (p : Placemark) : Placemark := { p with Export := none }

/-- Set a record's `Export` flag to `False` (used to express that folder
blocks are independent of the export flags). -/
def suppressRecord (p : Placemark) : Placemark := { p with Export := some false }

/-- The folder labels that survive the boundary check, given the current
label `cur`: one label per contiguous run differing from its predecessor. -/
def collapseAux (cur : String) : List String → List String
  | [] => []
  | b :: rest => if b ≠ cur then b :: collapseAux b rest else collapseAux cur rest

/-- One label per contiguous run of equal folder values. -/
def collapseRuns : List String → List String
  | [] => []
  | a :: rest => a :: collapseAux a rest

/-- Non-strict folder comparison induced by the sort key. -/
def folderLe (f g : String) : Prop := strLtb f g = true ∨ f = g

/-! ## Sanity evaluations of the embedded operations -/

example : tooClose discreteDist 3 [⟨0, 0, "", "f", some true⟩] ⟨1, 1, "", "f", none⟩ = true := by
  decide

example :
    filter_placemarks discreteDist 3 [⟨0, 0, "", "f", none⟩, ⟨1, 1, "", "f", none⟩] =
      [⟨0, 0, "", "f", some true⟩, ⟨1, 1, "", "f", some false⟩] := by
  decide

example :
    filter_placemarks discreteDist 1 [⟨0, 0, "", "f", none⟩, ⟨1, 1, "", "f", none⟩] =
      [⟨0, 0, "", "f", some true⟩, ⟨1, 1, "", "f", some true⟩] := by
  decide

example : latEx = 45.5 := by
  rw [show (45.5 : ℚ) = Rat.divInt 455 10 by norm_num [Rat.divInt_eq_div]]
  decide

example : ratStr latEx = "45.5" := by decide

example : pathSplit "a/b/c.jpg" = ("a/b", "c.jpg") := by decide
example : pathSplit "plain" = ("", "plain") := by decide


/-! ## Order theory of the sort key -/

theorem charListLtb_irrefl : ∀ a : List Char, charListLtb a a = false
  | [] => rfl
  | x :: xs => by
      simp only [charListLtb, lt_self_iff_false, if_false]
      exact charListLtb_irrefl xs

theorem charListLtb_trans : ∀ a b c : List Char,
    charListLtb a b = true → charListLtb b c = true → charListLtb a c = true
  | [], [], _, hab, _ => by simp [charListLtb] at hab
  | [], _ :: _, [], _, hbc => by simp [charListLtb] at hbc
  | [], _ :: _, _ :: _, _, _ => rfl
  | _ :: _, [], _, hab, _ => by simp [charListLtb] at hab
  | _ :: _, _ :: _, [], _, hbc => by simp [charListLtb] at hbc
  | x :: xs, y :: ys, z :: zs, hab, hbc => by
      simp only [charListLtb] at hab hbc ⊢
      by_cases hxy : x < y
      · by_cases hyz : y < z
        · simp [lt_trans hxy hyz]
        · by_cases hzy : z < y
          · simp [hyz, hzy] at hbc
          · have hyz' : y = z := le_antisymm (not_lt.mp hzy) (not_lt.mp hyz)
            subst hyz'
            simp [hxy]
      · by_cases hyx : y < x
        · simp [hxy, hyx] at hab
        · have hxy' : x = y := le_antisymm (not_lt.mp hyx) (not_lt.mp hxy)
          subst hxy'
          simp only [lt_self_iff_false, if_false] at hab
          by_cases hyz : x < z
          · simp [hyz]
          · by_cases hzy : z < x
            · simp [hyz, hzy] at hbc
            · have hyz' : x = z := le_antisymm (not_lt.mp hzy) (not_lt.mp hyz)
              subst hyz'
              simp only [lt_self_iff_false, if_false] at hbc ⊢
              exact charListLtb_trans xs ys zs hab hbc

theorem charListLtb_asymm (a b : List Char) (h : charListLtb a b = true) :
    charListLtb b a = false := by
  cases hba : charListLtb b a with
  | false => rfl
  | true =>
      have := charListLtb_trans a b a h hba
      rw [charListLtb_irrefl] at this
      exact Bool.noConfusion this

theorem charListLtb_connect : ∀ a b : List Char,
    charListLtb a b = false → charListLtb b a = false → a = b
  | [], [], _, _ => rfl
  | [], _ :: _, hab, _ => by simp [charListLtb] at hab
  | _ :: _, [], _, hba => by simp [charListLtb] at hba
  | x :: xs, y :: ys, hab, hba => by
      simp only [charListLtb] at hab hba
      by_cases hxy : x < y
      · simp [hxy] at hab
      · by_cases hyx : y < x
        · simp [hyx] at hba
        · have hxy' : x = y := le_antisymm (not_lt.mp hyx) (not_lt.mp hxy)
          subst hxy'
          simp only [lt_self_iff_false, if_false] at hab hba
          rw [charListLtb_connect xs ys hab hba]

theorem strLtb_connect (a b : String) (hab : strLtb a b = false)
    (hba : strLtb b a = false) : a = b := by
  have h := charListLtb_connect a.data b.data hab hba
  exact congrArg String.mk h

theorem keyLtb_asymm (p q : Placemark) (h : keyLtb p q = true) :
    keyLtb q p = false := by
  simp only [keyLtb, Bool.or_eq_true, Bool.and_eq_true, beq_iff_eq,
    decide_eq_true_eq] at h
  rcases h with h | ⟨hF, hL⟩
  · have hne : q.Folder ≠ p.Folder := by
      intro he
      rw [strLtb, he] at h
      rw [charListLtb_irrefl] at h
      exact Bool.noConfusion h
    simp [keyLtb, strLtb, charListLtb_asymm _ _ h, hne]
  · simp [keyLtb, strLtb, hF, charListLtb_irrefl, not_lt.mpr (le_of_lt hL)]

theorem keyLtb_trans (a b c : Placemark) (hab : keyLtb a b = true)
    (hbc : keyLtb b c = true) : keyLtb a c = true := by
  simp only [keyLtb, Bool.or_eq_true, Bool.and_eq_true, beq_iff_eq,
    decide_eq_true_eq] at hab hbc ⊢
  rcases hab with hab | ⟨hF1, hL1⟩
  · rcases hbc with hbc | ⟨hF2, hL2⟩
    · exact Or.inl (charListLtb_trans _ _ _ hab hbc)
    · rw [strLtb] at hab ⊢
      rw [← hF2]
      exact Or.inl hab
  · rcases hbc with hbc | ⟨hF2, hL2⟩
    · rw [strLtb] at hbc ⊢
      rw [hF1]
      exact Or.inl hbc
    · exact Or.inr ⟨hF1.trans hF2, lt_trans hL1 hL2⟩

theorem keyLtb_connect (b c : Placemark) (h1 : keyLtb b c = false)
    (h2 : keyLtb c b = false) : b.Folder = c.Folder ∧ b.Latitude = c.Latitude := by
  simp only [keyLtb, Bool.or_eq_false_iff, Bool.and_eq_false_iff, beq_eq_false_iff_ne,
    ne_eq, decide_eq_false_iff_not, not_lt] at h1 h2
  have hF : b.Folder = c.Folder := strLtb_connect _ _ h1.1 h2.1
  refine ⟨hF, ?_⟩
  rcases h1.2 with h | hbc
  · exact absurd hF h
  · rcases h2.2 with h | hcb
    · exact absurd hF.symm h
    · exact le_antisymm hcb hbc

theorem keyLeb_trans (a b c : Placemark) (hab : keyLeb a b = true)
    (hbc : keyLeb b c = true) : keyLeb a c = true := by
  simp only [keyLeb, Bool.not_eq_true', Bool.not_eq_false] at hab hbc ⊢
  cases hca : keyLtb c a with
  | false => rfl
  | true =>
      cases hbcb : keyLtb b c with
      | true =>
          have := keyLtb_trans b c a hbcb hca
          rw [hab] at this
          exact Bool.noConfusion this
      | false =>
          obtain ⟨hF, hL⟩ := keyLtb_connect b c hbcb hbc
          have : keyLtb c a = keyLtb b a := by simp [keyLtb, hF, hL]
          rw [this, hab] at hca
          exact Bool.noConfusion hca

theorem keyLeb_total (a b : Placemark) : (keyLeb a b || keyLeb b a) = true := by
  simp only [keyLeb]
  cases h : keyLtb b a with
  | false => simp
  | true => simp [keyLtb_asymm b a h]

theorem keyLe_of_keyLeb (p q : Placemark) (h : keyLeb p q = true) : keyLe p q := by
  simp only [keyLeb, Bool.not_eq_true'] at h
  simp only [keyLtb, Bool.or_eq_false_iff, Bool.and_eq_false_iff, beq_eq_false_iff_ne,
    ne_eq, decide_eq_false_iff_not, not_lt] at h
  cases hpq : strLtb p.Folder q.Folder with
  | true => exact Or.inl hpq
  | false =>
      have hF : p.Folder = q.Folder := strLtb_connect _ _ hpq h.1
      refine Or.inr ⟨hF, ?_⟩
      rcases h.2 with h' | h'
      · exact absurd hF.symm h'
      · exact h'

/-! ## Properties of the greedy filter -/

/-- The candidate record passes the kept-list scan exactly when it is not
strictly closer than `T` to any kept record. -/
theorem tooClose_eq_false_iff (d : ℚ → ℚ → ℚ → ℚ → ℚ) (T : ℚ)
    (kept : List Placemark) (c : Placemark) :
    tooClose d T kept c = false ↔
      ∀ k ∈ kept, ¬ (d c.Latitude c.Longitude k.Latitude k.Longitude < T) := by
  simp [tooClose]

/-- Every record in the filter output is one of the input records with its
`Export` flag set to some boolean. -/
theorem filter_aux_mem (d : ℚ → ℚ → ℚ → ℚ → ℚ) (T : ℚ) :
    ∀ (l kept : List Placemark) (b : Placemark),
      b ∈ filter_placemarks_aux d T kept l →
      ∃ c, c ∈ l ∧ ∃ bb : Bool, b = { c with Export := some bb }
  | [], _, b, hb => by simp [filter_placemarks_aux] at hb
  | c :: rest, kept, b, hb => by
      by_cases h : tooClose d T kept c = true
      · simp only [filter_placemarks_aux, h, if_true, List.mem_cons] at hb
        rcases hb with hb | hb
        · exact ⟨c, List.mem_cons_self c rest, false, hb⟩
        · obtain ⟨c', hc', bb, hb'⟩ := filter_aux_mem d T rest kept b hb
          exact ⟨c', List.mem_cons_of_mem c hc', bb, hb'⟩
      · rw [Bool.not_eq_true] at h
        simp only [filter_placemarks_aux, h, Bool.false_eq_true, if_false,
          List.mem_cons] at hb
        rcases hb with hb | hb
        · exact ⟨c, List.mem_cons_self c rest, true, hb⟩
        · obtain ⟨c', hc', bb, hb'⟩ :=
            filter_aux_mem d T rest (kept ++ [{ c with Export := some true }]) b hb
          exact ⟨c', List.mem_cons_of_mem c hc', bb, hb'⟩

/-- A record that comes out flagged `Export = true` is not strictly closer
than `T` to any record of the incoming kept list. -/
theorem filter_aux_kept_far (d : ℚ → ℚ → ℚ → ℚ → ℚ) (T : ℚ) :
    ∀ (l kept : List Placemark) (b : Placemark),
      b ∈ filter_placemarks_aux d T kept l → b.Export = some true →
      ∀ k ∈ kept, ¬ (d b.Latitude b.Longitude k.Latitude k.Longitude < T)
  | [], _, b, hb, _ => by simp [filter_placemarks_aux] at hb
  | c :: rest, kept, b, hb, hex => by
      by_cases h : tooClose d T kept c = true
      · simp only [filter_placemarks_aux, h, if_true, List.mem_cons] at hb
        rcases hb with hb | hb
        · rw [hb] at hex
          simp at hex
        · exact filter_aux_kept_far d T rest kept b hb hex
      · rw [Bool.not_eq_true] at h
        simp only [filter_placemarks_aux, h, Bool.false_eq_true, if_false,
          List.mem_cons] at hb
        rcases hb with hb | hb
        · intro k hk
          have hfar := (tooClose_eq_false_iff d T kept c).mp h k hk
          rw [hb]
          exact hfar
        · intro k hk
          exact filter_aux_kept_far d T rest (kept ++ [{ c with Export := some true }])
            b hb hex k (List.mem_append_left _ hk)

/-- Generalised form of the one-directional distance guarantee: in the
filter output, any later record flagged exported is at distance `≥ T` from
any earlier record flagged exported. -/
theorem filter_aux_pairwise (d : ℚ → ℚ → ℚ → ℚ → ℚ) (T : ℚ) :
    ∀ (l kept : List Placemark),
      List.Pairwise (fun a b => a.Export = some true → b.Export = some true →
        T ≤ d b.Latitude b.Longitude a.Latitude a.Longitude)
        (filter_placemarks_aux d T kept l)
  | [], _ => by simp [filter_placemarks_aux]
  | c :: rest, kept => by
      by_cases h : tooClose d T kept c = true
      · simp only [filter_placemarks_aux, h, if_true]
        refine List.Pairwise.cons ?_ (filter_aux_pairwise d T rest kept)
        intro b _ hexc _
        simp at hexc
      · rw [Bool.not_eq_true] at h
        simp only [filter_placemarks_aux, h, Bool.false_eq_true, if_false]
        refine List.Pairwise.cons ?_
          (filter_aux_pairwise d T rest (kept ++ [{ c with Export := some true }]))
        intro b hb _ hexb
        have hfar := filter_aux_kept_far d T rest
          (kept ++ [{ c with Export := some true }]) b hb hexb
          { c with Export := some true }
          (List.mem_append_right _ (List.mem_singleton.mpr rfl))
        exact not_lt.mp hfar

/-- Re-running the filter loop on its own output (with the same incoming
kept list) changes nothing: the recomputed decisions agree and the flags
are overwritten with the same values. -/
theorem filter_aux_idem (d : ℚ → ℚ → ℚ → ℚ → ℚ) (T : ℚ) :
    ∀ (l kept : List Placemark),
      filter_placemarks_aux d T kept (filter_placemarks_aux d T kept l) =
        filter_placemarks_aux d T kept l
  | [], _ => rfl
  | c :: rest, kept => by
      by_cases h : tooClose d T kept c = true
      · have hc : tooClose d T kept { c with Export := some false } =
            tooClose d T kept c := rfl
        simp only [filter_placemarks_aux, h, if_true]
        simp only [filter_placemarks_aux, hc, h, if_true]
        rw [filter_aux_idem d T rest kept]
      · rw [Bool.not_eq_true] at h
        have hc : tooClose d T kept { c with Export := some true } =
            tooClose d T kept c := rfl
        simp only [filter_placemarks_aux, h, Bool.false_eq_true, if_false]
        simp only [filter_placemarks_aux, hc, h, Bool.false_eq_true, if_false]
        congr 1
        exact filter_aux_idem d T rest (kept ++ [{ c with Export := some true }])

/-- The filter only flags records; it never drops or reorders them. -/
theorem filter_aux_length (d : ℚ → ℚ → ℚ → ℚ → ℚ) (T : ℚ) :
    ∀ (l kept : List Placemark),
      (filter_placemarks_aux d T kept l).length = l.length
  | [], _ => rfl
  | c :: rest, kept => by
      by_cases h : tooClose d T kept c = true
      · simp only [filter_placemarks_aux, h, if_true, List.length_cons,
          filter_aux_length d T rest kept]
      · rw [Bool.not_eq_true] at h
        simp only [filter_placemarks_aux, h, Bool.false_eq_true, if_false,
          List.length_cons,
          filter_aux_length d T rest (kept ++ [{ c with Export := some true }])]

/-- With threshold `0` and a nonnegative distance function, the strict
`< 0` test never fires, so every record is flagged exported. -/
theorem filter_aux_zero (d : ℚ → ℚ → ℚ → ℚ → ℚ)
    (hd : ∀ a b a' b', 0 ≤ d a b a' b') :
    ∀ (l kept : List Placemark) (b : Placemark),
      b ∈ filter_placemarks_aux d 0 kept l → b.Export = some true
  | [], _, b, hb => by simp [filter_placemarks_aux] at hb
  | c :: rest, kept, b, hb => by
      have h : tooClose d 0 kept c = false :=
        (tooClose_eq_false_iff d 0 kept c).mpr
          fun k _ => not_lt.mpr (hd _ _ _ _)
      simp only [filter_placemarks_aux, h, Bool.false_eq_true, if_false,
        List.mem_cons] at hb
      rcases hb with hb | hb
      · rw [hb]
      · exact filter_aux_zero d hd rest (kept ++ [{ c with Export := some true }]) b hb

/-! ## The filter only rewrites `Export`; order, coordinates, names and
folders are untouched -/

theorem filter_aux_map_strip (d : ℚ → ℚ → ℚ → ℚ → ℚ) (T : ℚ) :
    ∀ (l kept : List Placemark),
      (filter_placemarks_aux d T kept l).map stripExport = l.map stripExport
  | [], _ => rfl
  | c :: rest, kept => by
      by_cases h : tooClose d T kept c = true
      · simp only [filter_placemarks_aux, h, if_true, List.map_cons]
        exact congrArg₂ (· :: ·) rfl (filter_aux_map_strip d T rest _)
      · rw [Bool.not_eq_true] at h
        simp only [filter_placemarks_aux, h, Bool.false_eq_true, if_false,
          List.map_cons]
        exact congrArg₂ (· :: ·) rfl (filter_aux_map_strip d T rest _)

theorem filter_aux_filter_strip (d : ℚ → ℚ → ℚ → ℚ → ℚ) (T : ℚ)
    (P : Placemark → Bool)
    (hP : ∀ (c : Placemark) (e : Option Bool), P { c with Export := e } = P c) :
    ∀ (l kept : List Placemark),
      ((filter_placemarks_aux d T kept l).filter P).map stripExport =
        (l.filter P).map stripExport
  | [], _ => rfl
  | c :: rest, kept => by
      by_cases h : tooClose d T kept c = true
      · have hrec := filter_aux_filter_strip d T P hP rest kept
        simp only [filter_placemarks_aux, h, if_true, List.filter_cons, hP]
        cases hc : P c with
        | true =>
            simp only [hc, if_true, List.map_cons]
            exact congrArg₂ (· :: ·) rfl hrec
        | false => simpa only [hc, Bool.false_eq_true, if_false] using hrec
      · rw [Bool.not_eq_true] at h
        have hrec := filter_aux_filter_strip d T P hP rest
          (kept ++ [{ c with Export := some true }])
        simp only [filter_placemarks_aux, h, Bool.false_eq_true, if_false,
          List.filter_cons, hP]
        cases hc : P c with
        | true =>
            simp only [hc, if_true, List.map_cons]
            exact congrArg₂ (· :: ·) rfl hrec
        | false => simpa only [hc, Bool.false_eq_true, if_false] using hrec

theorem filter_aux_pairwise_keyLe (d : ℚ → ℚ → ℚ → ℚ → ℚ) (T : ℚ) :
    ∀ (l kept : List Placemark), List.Pairwise keyLe l →
      List.Pairwise keyLe (filter_placemarks_aux d T kept l)
  | [], _, _ => by simp [filter_placemarks_aux]
  | c :: rest, kept, hp => by
      obtain ⟨hhead, htail⟩ := List.pairwise_cons.mp hp
      by_cases h : tooClose d T kept c = true
      · simp only [filter_placemarks_aux, h, if_true]
        refine List.Pairwise.cons ?_ (filter_aux_pairwise_keyLe d T rest kept htail)
        intro b hb
        obtain ⟨c', hc', bb, hb'⟩ := filter_aux_mem d T rest kept b hb
        rw [hb']
        exact hhead c' hc'
      · rw [Bool.not_eq_true] at h
        simp only [filter_placemarks_aux, h, Bool.false_eq_true, if_false]
        refine List.Pairwise.cons ?_ (filter_aux_pairwise_keyLe d T rest _ htail)
        intro b hb
        obtain ⟨c', hc', bb, hb'⟩ := filter_aux_mem d T rest _ b hb
        rw [hb']
        exact hhead c' hc'

/-! ## The stable sort -/

theorem mergeSort_pairwise_keyLe (l : List Placemark) :
    List.Pairwise keyLe (l.mergeSort keyLeb) :=
  (List.sorted_mergeSort keyLeb_trans keyLeb_total l).imp
    fun h => keyLe_of_keyLeb _ _ h

theorem keyLeb_of_keyOf_eq (a b : Placemark) (h : keyOf a = keyOf b) :
    keyLeb a b = true := by
  have hF : a.Folder = b.Folder := congrArg Prod.fst h
  have hL : a.Latitude = b.Latitude := congrArg Prod.snd h
  simp [keyLeb, keyLtb, ← hF, ← hL, strLtb, charListLtb_irrefl, lt_irrefl]

/-- Stability of the sort, in filter form: the records carrying any fixed
sort key appear in the sorted output exactly as they appear in the input. -/
theorem mergeSort_filter_key (l : List Placemark) (k : String × ℚ) :
    (l.mergeSort keyLeb).filter (fun p => decide (keyOf p = k)) =
      l.filter (fun p => decide (keyOf p = k)) := by
  have hall : ∀ x ∈ l.filter (fun p => decide (keyOf p = k)), keyOf x = k :=
    fun x hx => of_decide_eq_true (List.mem_filter.mp hx).2
  have hpair : List.Pairwise (fun a b => keyLeb a b = true)
      (l.filter (fun p => decide (keyOf p = k))) := by
    refine List.pairwise_of_forall_mem_list fun a ha b hb => ?_
    exact keyLeb_of_keyOf_eq a b ((hall a ha).trans (hall b hb).symm)
  have hsub : List.Sublist (l.filter fun p => decide (keyOf p = k))
      (l.mergeSort keyLeb) :=
    List.sublist_mergeSort keyLeb_trans keyLeb_total hpair (List.filter_sublist l)
  have hmono := hsub.filter (fun p => decide (keyOf p = k))
  rw [List.filter_filter] at hmono
  have hself : (fun p => decide (keyOf p = k) && decide (keyOf p = k)) =
      (fun p : Placemark => decide (keyOf p = k)) := by
    funext p
    exact Bool.and_self _
  rw [hself] at hmono
  have hlen : ((l.mergeSort keyLeb).filter (fun p => decide (keyOf p = k))).length =
      (l.filter (fun p => decide (keyOf p = k))).length :=
    ((List.mergeSort_perm l keyLeb).filter _).length_eq
  exact (List.Sublist.eq_of_length hmono hlen.symm).symm

/-- The method `_reorder_placemarks` leaves the store sorted by the
`(Folder, Latitude)` key. -/
theorem reorder_pairwise_keyLe (d : ℚ → ℚ → ℚ → ℚ → ℚ) (T : ℚ)
    (l : List Placemark) : List.Pairwise keyLe (reorder_placemarks d T l) :=
  filter_aux_pairwise_keyLe d T _ [] (mergeSort_pairwise_keyLe l)

/-- The method `_reorder_placemarks` is stable: restricted to any fixed key, the
output records (up to the reassigned `Export` flags) are the input records
in their original order. -/
theorem reorder_stable (d : ℚ → ℚ → ℚ → ℚ → ℚ) (T : ℚ)
    (l : List Placemark) (k : String × ℚ) :
    ((reorder_placemarks d T l).filter (fun p => decide (keyOf p = k))).map stripExport =
      (l.filter (fun p => decide (keyOf p = k))).map stripExport := by
  have h1 := filter_aux_filter_strip d T (fun p => decide (keyOf p = k))
    (fun c e => rfl) (l.mergeSort keyLeb) []
  rw [reorder_placemarks, filter_placemarks, h1, mergeSort_filter_key l k]

/-! ## Folder grouping -/

theorem buildFoldersAux_names :
    ∀ (m : List Placemark) (cur : String) (acc : List PlacemarkElem),
      (buildFoldersAux cur acc m).map KmlFolder.name =
        cur :: collapseAux cur (m.map Placemark.Folder)
  | [], cur, acc => by simp [buildFoldersAux, collapseAux]
  | c :: rest, cur, acc => by
      by_cases h : c.Folder = cur
      · simp only [buildFoldersAux, h, ne_eq, not_true_eq_false, if_false,
          List.map_cons, collapseAux]
        exact buildFoldersAux_names rest cur (acc ++ emitRecord c)
      · simp only [buildFoldersAux, ne_eq, h, not_false_eq_true, if_true,
          List.map_cons, collapseAux]
        rw [buildFoldersAux_names rest c.Folder (emitRecord c)]

theorem collapseAux_subset :
    ∀ (L : List String) (cur x : String), x ∈ collapseAux cur L → x ∈ L
  | [], _, x, hx => by simp [collapseAux] at hx
  | b :: rest, cur, x, hx => by
      by_cases h : b = cur
      · simp only [collapseAux, h, ne_eq, not_true_eq_false, if_false] at hx
        exact List.mem_cons_of_mem _ (collapseAux_subset rest cur x hx)
      · simp only [collapseAux, ne_eq, h, not_false_eq_true, if_true,
          List.mem_cons] at hx
        rcases hx with hx | hx
        · exact hx ▸ List.mem_cons_self b rest
        · exact List.mem_cons_of_mem _ (collapseAux_subset rest b x hx)

theorem mem_collapseAux_or :
    ∀ (L : List String) (cur x : String), x ∈ L → x ∈ collapseAux cur L ∨ x = cur
  | [], _, x, hx => by simp at hx
  | b :: rest, cur, x, hx => by
      rcases List.mem_cons.mp hx with hx | hx
      · by_cases h : b = cur
        · exact Or.inr (hx.trans h)
        · subst hx
          simp only [collapseAux, ne_eq, h, not_false_eq_true, if_true]
          exact Or.inl (List.mem_cons_self _ _)
      · by_cases h : b = cur
        · simp only [collapseAux, h, ne_eq, not_true_eq_false, if_false]
          exact mem_collapseAux_or rest cur x hx
        · simp only [collapseAux, ne_eq, h, not_false_eq_true, if_true]
          rcases mem_collapseAux_or rest b x hx with h' | h'
          · exact Or.inl (List.mem_cons_of_mem _ h')
          · exact Or.inl (h' ▸ List.mem_cons_self _ _)

theorem collapseAux_chain :
    ∀ (L : List String) (cur : String), List.Chain folderLe cur L →
      List.Chain (fun f g => strLtb f g = true) cur (collapseAux cur L)
  | [], _, _ => List.Chain.nil
  | b :: rest, cur, h => by
      obtain ⟨h1, h2⟩ := List.chain_cons.mp h
      by_cases hb : b = cur
      · subst hb
        simp only [collapseAux, ne_eq, not_true_eq_false, if_false]
        exact collapseAux_chain rest b h2
      · simp only [collapseAux, ne_eq, hb, not_false_eq_true, if_true]
        refine List.chain_cons.mpr ⟨?_, collapseAux_chain rest b h2⟩
        rcases h1 with h1 | h1
        · exact h1
        · exact absurd h1.symm hb

theorem collapseRuns_nodup (L : List String) (h : List.Chain' folderLe L) :
    (collapseRuns L).Nodup := by
  cases L with
  | nil => simp [collapseRuns]
  | cons a t =>
      have hch : List.Chain folderLe a t := h
      have hlt := collapseAux_chain t a hch
      haveI : IsTrans String fun f g => strLtb f g = true :=
        ⟨fun a b c hab hbc => charListLtb_trans _ _ _ hab hbc⟩
      have hpw : List.Pairwise (fun f g => strLtb f g = true) (a :: collapseAux a t) :=
        List.chain_iff_pairwise.mp hlt
      show (a :: collapseAux a t).Nodup
      refine hpw.imp ?_
      intro f g hfg heq
      rw [heq] at hfg
      rw [strLtb, charListLtb_irrefl] at hfg
      exact Bool.noConfusion hfg

theorem emitRecord_length (c : Placemark) :
    (emitRecord c).length = if c.Export = some true then 1 else 0 := by
  rw [emitRecord]
  split
  · rfl
  · rfl

theorem buildFoldersAux_count :
    ∀ (m : List Placemark) (cur : String) (acc : List PlacemarkElem),
      emittedCount (buildFoldersAux cur acc m) =
        acc.length + m.countP (fun c => decide (c.Export = some true))
  | [], cur, acc => by simp [buildFoldersAux, emittedCount]
  | c :: rest, cur, acc => by
      by_cases h : c.Folder = cur
      · simp only [buildFoldersAux, h, ne_eq, not_true_eq_false, if_false]
        rw [buildFoldersAux_count rest cur (acc ++ emitRecord c)]
        rw [List.countP_cons, List.length_append, emitRecord_length]
        by_cases hex : c.Export = some true
        · simp [hex, emitRecord_length]
          omega
        · simp [hex, emitRecord_length]
      · simp only [buildFoldersAux, ne_eq, h, not_false_eq_true, if_true,
          emittedCount, List.map_cons, List.sum_cons]
        have hrec := buildFoldersAux_count rest c.Folder (emitRecord c)
        rw [emittedCount] at hrec
        rw [hrec, List.countP_cons, emitRecord_length]
        by_cases hex : c.Export = some true
        · simp [hex, emitRecord_length]
          omega
        · simp [hex, emitRecord_length]

theorem buildFoldersAux_elems :
    ∀ (m : List Placemark) (cur : String) (acc : List PlacemarkElem)
      (f : KmlFolder) (e : PlacemarkElem),
      f ∈ buildFoldersAux cur acc m → e ∈ f.placemarks →
      e ∈ acc ∨ ∃ c, c ∈ m ∧ c.Export = some true ∧ e = mkPlacemarkElem c
  | [], cur, acc, f, e, hf, he => by
      simp only [buildFoldersAux, List.mem_singleton] at hf
      rw [hf] at he
      exact Or.inl he
  | c :: rest, cur, acc, f, e, hf, he => by
      have hemit : ∀ x, x ∈ emitRecord c →
          c.Export = some true ∧ x = mkPlacemarkElem c := by
        intro x hx
        rw [emitRecord] at hx
        by_cases hex : c.Export = some true
        · rw [if_pos hex] at hx
          exact ⟨hex, List.mem_singleton.mp hx⟩
        · rw [if_neg hex] at hx
          exact absurd hx (List.not_mem_nil x)
      by_cases h : c.Folder = cur
      · simp only [buildFoldersAux, h, ne_eq, not_true_eq_false, if_false] at hf
        rcases buildFoldersAux_elems rest cur (acc ++ emitRecord c) f e hf he with
          hacc | ⟨c', hc', hex', he'⟩
        · rcases List.mem_append.mp hacc with hacc | hacc
          · exact Or.inl hacc
          · obtain ⟨hex, hx⟩ := hemit e hacc
            exact Or.inr ⟨c, List.mem_cons_self c rest, hex, hx⟩
        · exact Or.inr ⟨c', List.mem_cons_of_mem c hc', hex', he'⟩
      · simp only [buildFoldersAux, ne_eq, h, not_false_eq_true, if_true,
          List.mem_cons] at hf
        rcases hf with hf | hf
        · rw [hf] at he
          exact Or.inl he
        · rcases buildFoldersAux_elems rest c.Folder (emitRecord c) f e hf he with
            hacc | ⟨c', hc', hex', he'⟩
          · obtain ⟨hex, hx⟩ := hemit e hacc
            exact Or.inr ⟨c, List.mem_cons_self c rest, hex, hx⟩
          · exact Or.inr ⟨c', List.mem_cons_of_mem c hc', hex', he'⟩

theorem buildFoldersAux_all_empty :
    ∀ (m : List Placemark) (cur : String),
      (∀ c ∈ m, emitRecord c = []) →
      ∀ f ∈ buildFoldersAux cur [] m, f.placemarks = []
  | [], cur, _, f, hf => by
      simp only [buildFoldersAux, List.mem_singleton] at hf
      rw [hf]
  | c :: rest, cur, h, f, hf => by
      have hc : emitRecord c = [] := h c (List.mem_cons_self c rest)
      by_cases hF : c.Folder = cur
      · simp only [buildFoldersAux, hF, ne_eq, not_true_eq_false, if_false, hc,
          List.append_nil] at hf
        exact buildFoldersAux_all_empty rest cur
          (fun c' hc' => h c' (List.mem_cons_of_mem c hc')) f hf
      · simp only [buildFoldersAux, ne_eq, hF, not_false_eq_true, if_true, hc,
          List.mem_cons] at hf
        rcases hf with hf | hf
        · rw [hf]
        · exact buildFoldersAux_all_empty rest c.Folder
            (fun c' hc' => h c' (List.mem_cons_of_mem c hc')) f hf

/-! ## Remaining helper lemmas -/

theorem mem_collapseRuns (L : List String) (x : String) :
    x ∈ collapseRuns L ↔ x ∈ L := by
  cases L with
  | nil => simp [collapseRuns]
  | cons a t =>
      constructor
      · intro hx
        rcases List.mem_cons.mp hx with hx | hx
        · exact hx ▸ List.mem_cons_self a t
        · exact List.mem_cons_of_mem a (collapseAux_subset t a x hx)
      · intro hx
        rcases List.mem_cons.mp hx with hx | hx
        · exact hx ▸ List.mem_cons_self a _
        · rcases mem_collapseAux_or t a x hx with h | h
          · exact List.mem_cons_of_mem a h
          · exact h ▸ List.mem_cons_self a _

theorem map_folder_suppress (l : List Placemark) :
    ((l.map suppressRecord).map Placemark.Folder) = l.map Placemark.Folder := by
  rw [List.map_map]
  rfl

theorem emitRecord_suppress (p : Placemark) :
    emitRecord (suppressRecord p) = [] := by
  rw [suppressRecord, emitRecord]
  exact if_neg (by simp)

theorem reorder_length (d : ℚ → ℚ → ℚ → ℚ → ℚ) (T : ℚ) (l : List Placemark) :
    (reorder_placemarks d T l).length = l.length := by
  rw [reorder_placemarks, filter_placemarks, filter_aux_length, List.length_mergeSort]

theorem reorder_export_isSome (d : ℚ → ℚ → ℚ → ℚ → ℚ) (T : ℚ) (l : List Placemark) :
    ∀ c ∈ reorder_placemarks d T l, c.Export.isSome = true := by
  intro c hc
  obtain ⟨c', _, bb, hb⟩ := filter_aux_mem d T _ [] c hc
  rw [hb]
  rfl

theorem discreteDist_nonneg : ∀ a b a' b' : ℚ, 0 ≤ discreteDist a b a' b' := by
  intro a b a' b'
  rw [discreteDist]
  split
  · exact le_refl 0
  · exact zero_le_one

/-! ## The claims -/

/-- C1: After `_filter_placemarks` runs with threshold `T`, every record
flagged `Export = true` is at distance `≥ T` (as measured by the filter's
distance function, candidate first) from every earlier record in order that
is also flagged `Export = true` — exactly the records that were in the kept
list when the later record was scanned.  The guarantee is one-directional:
it is stated for later records against earlier-kept ones. -/
theorem claim_C1_filter_pairwise_distance (d : ℚ → ℚ → ℚ → ℚ → ℚ) (T : ℚ)
    (l : List Placemark) :
    List.Pairwise (fun a b => a.Export = some true → b.Export = some true →
      T ≤ d b.Latitude b.Longitude a.Latitude a.Longitude)
      (filter_placemarks d T l) :=
  filter_aux_pairwise d T l []

/-- C2 (failing evaluation): on an empty placemark store, `_get_kml_string`
does not signal an explicit error — it evaluates
`self._placemark_list[0]["Folder"]` and raises an uncaught `IndexError`
(modelled as the `PyExc.indexError` outcome), i.e. it crashes rather than
reporting a designed error. -/
theorem claim_C2_empty_store_indexerror :
    (get_kml_string discreteDist ⟨"my map", "", 0, []⟩).2 =
      Except.error PyExc.indexError := by
  simp [get_kml_string, reorder_placemarks, filter_placemarks,
    filter_placemarks_aux, buildFolders]

/-- C3 (failing evaluation): `_placemark_list` is a class attribute, so two
freshly constructed instances share it; adding a placemark through the
first instance changes the list the second instance observes, refuting
per-instance ownership. -/
theorem claim_C3_shared_class_list :
    view_placemark_list
        (add_placemark ⟨[]⟩ (kml_init "Map A") 45 73 "img.jpg" "folder1")
        (kml_init "Map B") ≠
      view_placemark_list ⟨[]⟩ (kml_init "Map B") := by
  decide

/-- C4: After `_reorder_placemarks` runs, the store is sorted by
`(Folder ascending lexicographic, Latitude ascending numeric)`, and the
sort is stable: for every key value, the records carrying that key (the
`Export` flag aside, which the subsequent filter pass reassigns) appear in
their original relative order. -/
theorem claim_C4_reorder_sorted_stable (d : ℚ → ℚ → ℚ → ℚ → ℚ) (T : ℚ)
    (l : List Placemark) (k : String × ℚ) :
    List.Pairwise keyLe (reorder_placemarks d T l) ∧
      ((reorder_placemarks d T l).filter fun p => decide (keyOf p = k)).map stripExport =
        (l.filter fun p => decide (keyOf p = k)).map stripExport :=
  ⟨reorder_pairwise_keyLe d T l, reorder_stable d T l k⟩

/-- C7: Re-running `_filter_placemarks` on its own output with the same
threshold yields the very same flags: the flags are recomputed from the
coordinates alone, so the second pass reproduces the first. -/
theorem claim_C7_filter_idempotent (d : ℚ → ℚ → ℚ → ℚ → ℚ) (T : ℚ)
    (l : List Placemark) :
    filter_placemarks d T (filter_placemarks d T l) = filter_placemarks d T l :=
  filter_aux_idem d T l []

/-- C5: The filter comparison is strict-less-than: with threshold `0` (and
the nonnegative distance function) every record is flagged exported and the
document emits exactly one placemark per input record; and a candidate
whose distance to every record of the current kept list is exactly `T` is
flagged exported and appended to the kept list. -/
theorem claim_C5_strict_threshold (d : ℚ → ℚ → ℚ → ℚ → ℚ) (T : ℚ)
    (l kept rest : List Placemark) (c : Placemark)
    (hd : ∀ a b a' b', 0 ≤ d a b a' b')
    (hk : ∀ k ∈ kept, d c.Latitude c.Longitude k.Latitude k.Longitude = T) :
    (∀ p ∈ filter_placemarks d 0 l, p.Export = some true) ∧
      (∀ fs, buildFolders (filter_placemarks d 0 l) = some fs →
        emittedCount fs = l.length) ∧
      filter_placemarks_aux d T kept (c :: rest) =
        { c with Export := some true } ::
          filter_placemarks_aux d T (kept ++ [{ c with Export := some true }]) rest := by
  refine ⟨fun p hp => filter_aux_zero d hd l [] p hp, ?_, ?_⟩
  · intro fs hfs
    cases m : filter_placemarks d 0 l with
    | nil =>
        rw [m] at hfs
        exact absurd hfs (by simp [buildFolders])
    | cons c0 rest0 =>
        rw [m] at hfs
        simp only [buildFolders, Option.some.injEq] at hfs
        rw [← hfs, buildFoldersAux_count]
        have hall : ∀ p ∈ c0 :: rest0, p.Export = some true := by
          intro p hp
          rw [← m] at hp
          exact filter_aux_zero d hd l [] p hp
        have hcount : (c0 :: rest0).countP (fun c => decide (c.Export = some true)) =
            (c0 :: rest0).length := by
          rw [List.countP_eq_length]
          intro a ha
          simp [hall a ha]
        simp only [List.length_nil, Nat.zero_add, hcount]
        rw [← m]
        exact filter_aux_length d 0 l []
  · have htc : tooClose d T kept c = false :=
      (tooClose_eq_false_iff d T kept c).mpr fun k hkk => by
        rw [hk k hkk]
        exact lt_irrefl T
    simp [filter_placemarks_aux, htc]

/-- C6: On a nonempty store whose folder labels are nondecreasing (as after
sorting), the document carries exactly one Folder block per distinct folder
value — the block labels are distinct and are exactly the folder values of
the store — and the Folder nodes are created independently of the export
flags: with every record suppressed the same folder blocks appear, all
empty. -/
theorem claim_C6_folder_blocks (l : List Placemark) (hne : l ≠ [])
    (hchain : List.Chain' folderLe (l.map Placemark.Folder)) :
    ∃ fs, buildFolders l = some fs ∧
      (fs.map KmlFolder.name).Nodup ∧
      (∀ s, s ∈ fs.map KmlFolder.name ↔ s ∈ l.map Placemark.Folder) ∧
      ∃ fs', buildFolders (l.map suppressRecord) = some fs' ∧
        fs'.map KmlFolder.name = fs.map KmlFolder.name ∧
        ∀ f ∈ fs', f.placemarks = [] := by
  cases l with
  | nil => exact absurd rfl hne
  | cons c0 rest =>
      have hnames : (buildFoldersAux c0.Folder [] (c0 :: rest)).map KmlFolder.name =
          collapseRuns ((c0 :: rest).map Placemark.Folder) := by
        rw [buildFoldersAux_names]
        simp [collapseRuns, collapseAux]
      refine ⟨buildFoldersAux c0.Folder [] (c0 :: rest), rfl, ?_, ?_, ?_⟩
      · rw [hnames]
        exact collapseRuns_nodup _ hchain
      · intro s
        rw [hnames]
        exact mem_collapseRuns _ s
      · refine ⟨buildFoldersAux c0.Folder [] ((c0 :: rest).map suppressRecord),
          rfl, ?_, ?_⟩
        · rw [buildFoldersAux_names, buildFoldersAux_names, map_folder_suppress]
        · intro f hf
          refine buildFoldersAux_all_empty _ _ ?_ f hf
          intro c hc
          obtain ⟨c', _, he⟩ := List.mem_map.mp hc
          rw [← he]
          exact emitRecord_suppress c'

/-- C8: Every placemark element of the built document belongs to an
exported record of the store and its coordinate text is the longitude
rendered at full stored precision, a comma, then the latitude (longitude
first); in particular the record with latitude `45.5` and longitude `-73.5`
yields coordinate text exactly `"-73.5,45.5"`. -/
theorem claim_C8_coordinates (l : List Placemark) (fs : List KmlFolder)
    (f : KmlFolder) (e : PlacemarkElem)
    (h1 : buildFolders l = some fs) (h2 : f ∈ fs) (h3 : e ∈ f.placemarks) :
    (∃ c, c ∈ l ∧ c.Export = some true ∧
        e.coordinates = ratStr c.Longitude ++ "," ++ ratStr c.Latitude) ∧
      (mkPlacemarkElem ⟨latEx, lonEx, "", "f", some true⟩).coordinates = "-73.5,45.5" ∧
      latEx = 45.5 ∧ lonEx = -73.5 := by
  refine ⟨?_, by decide, ?_, ?_⟩
  · cases l with
    | nil => exact absurd h1 (by simp [buildFolders])
    | cons c0 rest =>
        simp only [buildFolders, Option.some.injEq] at h1
        rw [← h1] at h2
        rcases buildFoldersAux_elems (c0 :: rest) c0.Folder [] f e h2 h3 with
          hacc | ⟨c, hc, hex, he⟩
        · exact absurd hacc (List.not_mem_nil e)
        · exact ⟨c, hc, hex, by rw [he]; rfl⟩
  · rw [show (45.5 : ℚ) = Rat.divInt 455 10 by norm_num [Rat.divInt_eq_div]]
    decide
  · rw [show (-73.5 : ℚ) = Rat.divInt (-735) 10 by norm_num [Rat.divInt_eq_div]]
    decide

/-- C9: On a nonempty store, `save_kml_file` never lets a write failure
escape: whatever the outcome of the delegated write, the method returns a
boolean — `True` exactly when the write succeeded, `False` on any
`IOError`/`OSError` (permission denied, missing directory, disk full). -/
theorem claim_C9_save_write_bool (d : ℚ → ℚ → ℚ → ℚ → ℚ) (st : KmlState)
    (w : Except WriteErr Unit) (h : st.placemark_list ≠ []) :
    ∃ b : Bool, (save_kml_file d st w).2 = Except.ok b ∧
      (b = true ↔ w = Except.ok ()) := by
  have hlen := reorder_length d st.min_distance_between_placemarks_in_meters
    st.placemark_list
  cases hre : reorder_placemarks d st.min_distance_between_placemarks_in_meters
      st.placemark_list with
  | nil =>
      rw [hre] at hlen
      exact absurd (List.length_eq_zero.mp hlen.symm) h
  | cons c0 r0 =>
      cases w with
      | ok u =>
          cases u
          refine ⟨true, ?_, by simp⟩
          simp [save_kml_file, get_kml_string, hre, buildFolders]
      | error e =>
          refine ⟨false, ?_, by simp⟩
          simp [save_kml_file, get_kml_string, hre, buildFolders]

/-- C10: `_get_kml_string` re-sorts and re-filters the store as a side
effect: afterwards the store equals `_reorder_placemarks` of its previous
contents, every record carries a defined `Export` flag, the store is
sorted by `(Folder, Latitude)`, and (the store being nonempty) the
document is produced. -/
theorem claim_C10_render_reestablishes (d : ℚ → ℚ → ℚ → ℚ → ℚ) (st : KmlState)
    (h : st.placemark_list ≠ []) :
    (get_kml_string d st).1.placemark_list =
        reorder_placemarks d st.min_distance_between_placemarks_in_meters
          st.placemark_list ∧
      (∀ c ∈ (get_kml_string d st).1.placemark_list, c.Export.isSome = true) ∧
      List.Pairwise keyLe (get_kml_string d st).1.placemark_list ∧
      ∃ doc, (get_kml_string d st).2 = Except.ok doc := by
  have hfst : (get_kml_string d st).1 =
      { st with placemark_list := (reorder_placemarks d
          st.min_distance_between_placemarks_in_meters st.placemark_list) } := by
    rcases hb : buildFolders (reorder_placemarks d
        st.min_distance_between_placemarks_in_meters st.placemark_list) with _ | fs
    · simp [get_kml_string, hb]
    · simp [get_kml_string, hb]
  refine ⟨by rw [hfst], ?_, ?_, ?_⟩
  · rw [hfst]
    exact reorder_export_isSome d _ _
  · rw [hfst]
    exact reorder_pairwise_keyLe d _ _
  · have hlen := reorder_length d st.min_distance_between_placemarks_in_meters
      st.placemark_list
    cases hre : reorder_placemarks d st.min_distance_between_placemarks_in_meters
        st.placemark_list with
    | nil =>
        rw [hre] at hlen
        exact absurd (List.length_eq_zero.mp hlen.symm) h
    | cons c0 r0 =>
        refine ⟨⟨st.map_name, st.map_description,
          buildFoldersAux c0.Folder [] (c0 :: r0)⟩, ?_⟩
        simp [get_kml_string, hre, buildFolders]

/-! ## Concrete witnesses -/

/-- Witness for C5 at a two-record store, the discrete distance, and a
kept list at distance exactly `1` from the candidate with threshold `1`. -/
theorem claim_C5_witness :
    (∀ p ∈ filter_placemarks discreteDist 0
        [⟨0, 0, "", "f", none⟩, ⟨1, 1, "", "f", none⟩], p.Export = some true) ∧
      (∀ fs, buildFolders (filter_placemarks discreteDist 0
          [⟨0, 0, "", "f", none⟩, ⟨1, 1, "", "f", none⟩]) = some fs →
        emittedCount fs =
          [(⟨0, 0, "", "f", none⟩ : Placemark), ⟨1, 1, "", "f", none⟩].length) ∧
      filter_placemarks_aux discreteDist 1 [⟨0, 0, "", "f", some true⟩]
          (⟨1, 1, "", "f", none⟩ :: []) =
        { (⟨1, 1, "", "f", none⟩ : Placemark) with Export := some true } ::
          filter_placemarks_aux discreteDist 1
            ([⟨0, 0, "", "f", some true⟩] ++
              [{ (⟨1, 1, "", "f", none⟩ : Placemark) with Export := some true }]) [] :=
  claim_C5_strict_threshold discreteDist 1
    [⟨0, 0, "", "f", none⟩, ⟨1, 1, "", "f", none⟩]
    [⟨0, 0, "", "f", some true⟩] [] ⟨1, 1, "", "f", none⟩
    discreteDist_nonneg (by decide)

/-- Witness for C6 at a two-folder store with every record suppressed. -/
theorem claim_C6_witness :
    ∃ fs, buildFolders [(⟨1, 1, "a.jpg", "A", some false⟩ : Placemark),
        ⟨2, 2, "b.jpg", "B", some false⟩] = some fs ∧
      (fs.map KmlFolder.name).Nodup ∧
      (∀ s, s ∈ fs.map KmlFolder.name ↔
        s ∈ [(⟨1, 1, "a.jpg", "A", some false⟩ : Placemark),
          ⟨2, 2, "b.jpg", "B", some false⟩].map Placemark.Folder) ∧
      ∃ fs', buildFolders ([(⟨1, 1, "a.jpg", "A", some false⟩ : Placemark),
          ⟨2, 2, "b.jpg", "B", some false⟩].map suppressRecord) = some fs' ∧
        fs'.map KmlFolder.name = fs.map KmlFolder.name ∧
        ∀ f ∈ fs', f.placemarks = [] :=
  claim_C6_folder_blocks
    [⟨1, 1, "a.jpg", "A", some false⟩, ⟨2, 2, "b.jpg", "B", some false⟩]
    (by decide) (List.Chain.cons (Or.inl (by decide)) List.Chain.nil)

/-- Witness for C8 at a one-record store holding latitude `45.5` and
longitude `-73.5`. -/
theorem claim_C8_witness :
    (∃ c, c ∈ [(⟨latEx, lonEx, "", "f", some true⟩ : Placemark)] ∧
        c.Export = some true ∧
        (mkPlacemarkElem ⟨latEx, lonEx, "", "f", some true⟩).coordinates =
          ratStr c.Longitude ++ "," ++ ratStr c.Latitude) ∧
      (mkPlacemarkElem ⟨latEx, lonEx, "", "f", some true⟩).coordinates =
        "-73.5,45.5" ∧
      latEx = 45.5 ∧ lonEx = -73.5 :=
  claim_C8_coordinates [⟨latEx, lonEx, "", "f", some true⟩]
    [⟨"f", [mkPlacemarkElem ⟨latEx, lonEx, "", "f", some true⟩]⟩]
    ⟨"f", [mkPlacemarkElem ⟨latEx, lonEx, "", "f", some true⟩]⟩
    (mkPlacemarkElem ⟨latEx, lonEx, "", "f", some true⟩)
    rfl (List.mem_singleton.mpr rfl) (List.mem_singleton.mpr rfl)

/-- Witness for C9 at a one-record store and a failed (permission-denied)
write. -/
theorem claim_C9_witness :
    ∃ b : Bool, (save_kml_file discreteDist ⟨"m", "", 0, [⟨0, 0, "", "f", none⟩]⟩
        (Except.error WriteErr.permissionDenied)).2 = Except.ok b ∧
      (b = true ↔
        (Except.error WriteErr.permissionDenied : Except WriteErr Unit) =
          Except.ok ()) :=
  claim_C9_save_write_bool discreteDist ⟨"m", "", 0, [⟨0, 0, "", "f", none⟩]⟩
    (Except.error WriteErr.permissionDenied) (by decide)

/-- Witness for C10 at a one-record store. -/
theorem claim_C10_witness :
    (get_kml_string discreteDist ⟨"m", "", 0, [⟨0, 0, "", "f", none⟩]⟩).1.placemark_list =
        reorder_placemarks discreteDist 0 [⟨0, 0, "", "f", none⟩] ∧
      (∀ c ∈ (get_kml_string discreteDist
          ⟨"m", "", 0, [⟨0, 0, "", "f", none⟩]⟩).1.placemark_list,
        c.Export.isSome = true) ∧
      List.Pairwise keyLe (get_kml_string discreteDist
        ⟨"m", "", 0, [⟨0, 0, "", "f", none⟩]⟩).1.placemark_list ∧
      ∃ doc, (get_kml_string discreteDist
        ⟨"m", "", 0, [⟨0, 0, "", "f", none⟩]⟩).2 = Except.ok doc :=
  claim_C10_render_reestablishes discreteDist
    ⟨"m", "", 0, [⟨0, 0, "", "f", none⟩]⟩ (by decide)
